import Mathlib

/-!
Shallow embedding of the cache core of `simple-mem-cache` (src/cache.rs).

Modelling choices:
- `Instant` (Rust `std::time::Instant`, a monotonic clock) is embedded as `Nat`
  (nanosecond ticks); `Duration` likewise.  `now + ttl` is `Nat` addition.
- Rust `String::len` counts UTF-8 bytes, embedded as `String.utf8ByteSize`.
- The `CHashMap` backing store is embedded as an association list with
  first-occurrence lookup; `insert` replaces the entry for an existing key and
  returns the old value, and `alter` with a closure returning `None` removes
  the entry.  `len` reads chashmap's atomic length counter, which `alter`
  decrements only after the closure has returned `None`; hence the `self.len()`
  call made inside the closure's removal branch in `remove_key_if_older_than`
  observes the pre-removal entry count, and the embedding writes that
  pre-removal count into the items gauge.  (`put` calls `self.len()` after
  `insert` has returned, so there it observes the post-insert count.)
- The crossbeam unbounded channel is embedded as a FIFO list: `send` appends
  at the back, the cleaner consumes from the front.  `send` fails only when
  the channel is disconnected; a `sendOk` flag models this, and on failure the
  code only logs (modelled as a trace event, no state change).
- Prometheus gauges (`i64`) are embedded as `Int`, counters as `Nat`.
- The metric calls and the channel push made by `put` are recorded, in program
  order, as an explicit side-effect trace so that ordering claims are statable.
-/

namespace SimpleMemCache

/-- Monotonic instants (Rust `std::time::Instant`), as nanosecond ticks. -/
abbrev Instant := Nat

/-- Durations (Rust `std::time::Duration`), as nanosecond ticks. -/
abbrev Duration := Nat

/-- Byte length of a Rust `String` (`String::len` counts UTF-8 bytes). -/
def byteLen (s : String) : Nat := s.utf8ByteSize

/-- Rust struct `CacheValue { value: String, expiry: Instant }`. -/
structure CacheValue where
value : String
expiry : Instant
deriving DecidableEq

/-- Rust struct `KeyExpiry(Cow<str>, Instant)`: one expiry queue message. -/
structure KeyExpiry where
key : String
expiry : Instant
deriving DecidableEq

/-- The backing store: `CHashMap<Cow<str>, CacheValue>` as an association
list with first-occurrence lookup semantics. -/
abbrev Store := List (String × CacheValue)

/-- Lookup in the backing store (`CHashMap::get`). -/
def storeGet : Store → String → Option CacheValue
| [], _ => none
| (k1, v1) :: rest, k => if k1 = k then some v1 else storeGet rest k

/-- Rust `CHashMap::insert`: replace the entry for the key if present, else add it.
The old value (returned by the Rust call) is recovered via `storeGet`. -/
def storeInsert : Store → String → CacheValue → Store
| [], k, v => [(k, v)]
| (k1, v1) :: rest, k, v =>
if k1 = k then (k, v) :: rest else (k1, v1) :: storeInsert rest k v

/-- Removal of a key (the `alter` closure returning `None`). -/
def storeRemove : Store → String → Store
| [], _ => []
| (k1, v1) :: rest, k => if k1 = k then rest else (k1, v1) :: storeRemove rest k

/-- Sum of the byte lengths of all stored values (what the size gauge tracks). -/
def storeSizeSum (st : Store) : Int :=
(st.map (fun p => (byteLen p.2.value : Int))).sum

/-- The store keys are pairwise distinct (true of every reachable store). -/
def storeKeysNodup (st : Store) : Prop := (st.map Prod.fst).Nodup

instance (st : Store) : Decidable (storeKeysNodup st) := by
unfold storeKeysNodup
infer_instance

/-- One observable side effect of `put`, in program order: metric calls, the
channel push, or the logged push failure. -/
inductive SideEffect where
| sizeSub (n : Nat)
| itemsSet (n : Nat)
| sizeAdd (n : Nat)
| queuePush (key : String) (expiry : Instant)
| queuePushFailed (key : String) (expiry : Instant)
deriving DecidableEq

/-- The whole cache state: `SimpleCache` plus its `CacheMetrics` sink and the
contents of the expiry channel (front = oldest message). -/
structure CacheState where
key_live_duration : Duration
backing_store : Store
queue : List KeyExpiry
items : Int
size : Int
hits : Nat
misses : Nat
deriving DecidableEq

/-- Rust `SimpleCache::new` with fresh `CacheMetrics` (all gauges and counters 0). -/
def SimpleCache.new (key_live_duration : Duration) : CacheState :=
{ key_live_duration := key_live_duration
  backing_store := []
  queue := []
  items := 0
  size := 0
  hits := 0
  misses := 0 }

/-- Rust `SimpleCache::remove_key_if_older_than` (cache.rs lines 86-98): atomic
check-and-delete via `CHashMap::alter`.  Keeps the entry when
`value.expiry > expiry`; otherwise deletes it, sets the items gauge to the
count `self.len()` observes at that point — the pre-removal entry count,
because chashmap decrements its atomic length counter only after the `alter`
closure has returned `None` — and subtracts the deleted value's byte length
from the size gauge; a missing key is left as is. -/
def remove_key_if_older_than (s : CacheState) (key : String) (expiry : Instant) :
    CacheState :=
match storeGet s.backing_store key with
| some value =>
  if value.expiry > expiry then s
  else
    { s with backing_store := storeRemove s.backing_store key
             items := (s.backing_store.length : Int)
             size := s.size - (byteLen value.value : Int) }
| none => s

/-- Rust `SimpleCache::get` (cache.rs lines 135-152): returns the mapped value and
bumps the hit counter on presence, else `none` and the miss counter.  It never
consults expiry and never mutates the store or the queue. -/
def get {V : Type} (s : CacheState) (key : String) (as_value : String → V) :
    Option V × CacheState :=
match storeGet s.backing_store key with
| some v => (some (as_value v.value), { s with hits := s.hits + 1 })
| none => (none, { s with misses := s.misses + 1 })

/-- Rust `SimpleCache::put` (cache.rs lines 158-177), with its observable side
effects recorded in program order: insert; if an old entry existed, subtract
its byte length from the size gauge; set the items gauge to the store length;
add the new value's byte length to the size gauge; send `KeyExpiry(key,
expiry)` on the channel (on failure, only a log line is emitted).  `now` is
the value of `Instant::now()` and `sendOk` whether the send succeeds. -/
def putWithTrace (s : CacheState) (key : String) (value : String) (now : Instant)
    (sendOk : Bool) : CacheState × List SideEffect :=
let expiry := now + s.key_live_duration
let value_size := byteLen value
let old := storeGet s.backing_store key
let store := storeInsert s.backing_store key { value := value, expiry := expiry }
let s1 : CacheState := { s with backing_store := store }
let s2 : CacheState :=
  match old with
  | some old_value => { s1 with size := s1.size - (byteLen old_value.value : Int) }
  | none => s1
let tr1 : List SideEffect :=
  match old with
  | some old_value => [SideEffect.sizeSub (byteLen old_value.value)]
  | none => []
let s3 : CacheState := { s2 with items := (store.length : Int) }
let s4 : CacheState := { s3 with size := s3.size + (value_size : Int) }
if sendOk then
  ({ s4 with queue := s4.queue ++ [{ key := key, expiry := expiry }] },
    tr1 ++ [SideEffect.itemsSet store.length, SideEffect.sizeAdd value_size,
      SideEffect.queuePush key expiry])
else
  (s4, tr1 ++ [SideEffect.itemsSet store.length, SideEffect.sizeAdd value_size,
    SideEffect.queuePushFailed key expiry])

/-- Rust `SimpleCache::put`, state part. -/
def put (s : CacheState) (key : String) (value : String) (now : Instant)
    (sendOk : Bool) : CacheState :=
(putWithTrace s key value now sendOk).1

/-- One public cache operation, for reasoning about arbitrary call sequences.
`opPut` carries the `Instant::now()` value and whether the channel send
succeeds; `opGet`'s mapper plays no role in the state, so the identity mapper
is used. -/
inductive CacheOp where
| opGet (key : String)
| opPut (key : String) (value : String) (now : Instant) (sendOk : Bool)
| opRemoveIfExpired (key : String) (expiry : Instant)
deriving DecidableEq

/-- Apply one operation to the cache state. -/
def applyOp (s : CacheState) : CacheOp → CacheState
| CacheOp.opGet k => (get s k (fun v => v)).2
| CacheOp.opPut k v now sendOk => put s k v now sendOk
| CacheOp.opRemoveIfExpired k e => remove_key_if_older_than s k e

/-- Apply a sequence of operations, oldest first. -/
def runOps (s : CacheState) (ops : List CacheOp) : CacheState :=
ops.foldl applyOp s

/-- Whether an operation is a `put` for the given key. -/
def opIsPutFor (k : String) : CacheOp → Bool
| CacheOp.opPut k1 _ _ _ => k1 = k
| _ => false

/-- The metrics invariant: the size gauge equals the sum of the byte lengths
of all stored values and the items gauge equals the key count. -/
def gaugesAccurate (s : CacheState) : Prop :=
s.size = storeSizeSum s.backing_store ∧ s.items = (s.backing_store.length : Int)

instance (s : CacheState) : Decidable (gaugesAccurate s) := by
unfold gaugesAccurate
infer_instance

/-- The store with every entry's expiry replaced by `e` (used to state that
`get` never consults expiry). -/
def setStoreExpiry (st : Store) (e : Instant) : Store :=
st.map (fun p => (p.1, { value := p.2.value, expiry := e }))

/-- Result of a run of the cleaner's `clean` loop: the cache state, the clock
when the loop exits, the sends not yet delivered, and the messages consumed,
in consumption order. -/
structure CleanResult where
state : CacheState
clock : Instant
pending : List (Instant × KeyExpiry)
processed : List KeyExpiry
deriving DecidableEq

/-- Whether a timed send has reached the channel by the given clock. -/
def arrivedBy (clock : Instant) (a : Instant × KeyExpiry) : Bool :=
decide (a.1 ≤ clock)

/-- Rust `SimpleCache::clean` (cache.rs lines 104-112): drain the channel via
`try_iter`.  Time is modelled by an explicit `clock`; `delay(expiry - now)`
advances the clock to `expiry`.  Concurrent producers are modelled by
`arrivals`, a list of `(send time, message)` pairs in send order: a message is
visible to `try_iter` once the clock has reached its send time.  Each
iteration first delivers the arrivals due by now into the channel (back of
`queue`), then pops the front message if any, waits out its expiry, and calls
`remove_key_if_older_than`; the loop ends when the channel is observed empty.
`fuel` bounds the iteration count (any value above the total message count is
enough). -/
def clean : Nat → CacheState → Instant → List (Instant × KeyExpiry) →
    List KeyExpiry → CleanResult
| 0, s, clock, arrivals, processed =>
  { state := s, clock := clock, pending := arrivals, processed := processed }
| fuel + 1, s, clock, arrivals, processed =>
  let delivered := (arrivals.filter (arrivedBy clock)).map Prod.snd
  let pending := arrivals.filter (fun a => ! arrivedBy clock a)
  let s1 : CacheState := { s with queue := s.queue ++ delivered }
  match s1.queue with
  | [] => { state := s1, clock := clock, pending := pending, processed := processed }
  | ke :: rest =>
    let clock1 := max clock ke.expiry
    let s2 := remove_key_if_older_than { s1 with queue := rest } ke.key ke.expiry
    clean fuel s2 clock1 pending (processed ++ [ke])

/-- Reference description of one batch: process the listed messages in order,
waiting out each expiry (`max`) and then invoking the conditional removal. -/
def processBatch : CacheState → Instant → List KeyExpiry → CacheState × Instant
| s, clock, [] => (s, clock)
| s, clock, ke :: rest =>
  processBatch (remove_key_if_older_than s ke.key ke.expiry) (max clock ke.expiry) rest

/-- One iteration of `SimpleCache::cleaner` (cache.rs lines 119-125): run
`clean`, then `delay_for(key_live_duration)`. -/
def cleanerPass (fuel : Nat) (s : CacheState) (clock : Instant)
    (arrivals : List (Instant × KeyExpiry)) : CleanResult :=
let r := clean fuel s clock arrivals []
{ r with clock := r.clock + s.key_live_duration }

/-- Byte length of the value held in an optional entry (0 when absent). -/
def oldSize : Option CacheValue → Int
| some cv => (byteLen cv.value : Int)
| none => 0

theorem storeGet_storeInsert_self (st : Store) (k : String) (v : CacheValue) :
    storeGet (storeInsert st k v) k = some v := by
induction st with
| nil => simp [storeInsert, storeGet]
| cons p rest ih =>
  obtain ⟨k1, v1⟩ := p
  by_cases h : k1 = k
  · simp [storeInsert, h, storeGet]
  · simp [storeInsert, h, storeGet, ih]

theorem storeGet_storeInsert_ne (st : Store) (k k2 : String) (v : CacheValue)
    (h : k ≠ k2) : storeGet (storeInsert st k v) k2 = storeGet st k2 := by
induction st with
| nil => simp [storeInsert, storeGet, h]
| cons p rest ih =>
  obtain ⟨k1, v1⟩ := p
  by_cases h1 : k1 = k
  · subst h1
    simp [storeInsert, storeGet, h]
  · simp [storeInsert, h1, storeGet, ih]

theorem storeGet_storeRemove_ne (st : Store) (k k2 : String) (h : k ≠ k2) :
    storeGet (storeRemove st k) k2 = storeGet st k2 := by
induction st with
| nil => simp [storeRemove]
| cons p rest ih =>
  obtain ⟨k1, v1⟩ := p
  by_cases h1 : k1 = k
  · subst h1
    simp [storeRemove, storeGet, h]
  · simp [storeRemove, h1, storeGet, ih]

theorem storeGet_eq_none_of_not_mem (st : Store) (k : String)
    (h : k ∉ st.map Prod.fst) : storeGet st k = none := by
induction st with
| nil => simp [storeGet]
| cons p rest ih =>
  obtain ⟨k1, v1⟩ := p
  simp only [List.map_cons, List.mem_cons] at h
  push_neg at h
  have h1 : ¬ k1 = k := fun hh => h.1 hh.symm
  simp [storeGet, h1, ih h.2]

theorem storeGet_storeRemove_self (st : Store) (k : String)
    (h : storeKeysNodup st) : storeGet (storeRemove st k) k = none := by
induction st with
| nil => simp [storeRemove, storeGet]
| cons p rest ih =>
  obtain ⟨k1, v1⟩ := p
  unfold storeKeysNodup at h
  simp only [List.map_cons, List.nodup_cons] at h
  by_cases h1 : k1 = k
  · subst h1
    simp only [storeRemove, if_pos rfl]
    exact storeGet_eq_none_of_not_mem rest k1 h.1
  · simp only [storeRemove, if_neg h1, storeGet, if_neg h1]
    exact ih h.2

theorem storeSizeSum_storeInsert (st : Store) (k : String) (v : CacheValue) :
    storeSizeSum (storeInsert st k v) =
      storeSizeSum st - oldSize (storeGet st k) + (byteLen v.value : Int) := by
induction st with
| nil => simp [storeInsert, storeSizeSum, storeGet, oldSize]
| cons p rest ih =>
  obtain ⟨k1, v1⟩ := p
  by_cases h : k1 = k
  · simp only [storeInsert, if_pos h, storeGet, storeSizeSum, List.map_cons,
      List.sum_cons, oldSize]
    ring
  · simp only [storeInsert, if_neg h, storeGet, storeSizeSum, List.map_cons,
      List.sum_cons] at *
    rw [ih]
    ring

theorem storeSizeSum_storeRemove (st : Store) (k : String) :
    storeSizeSum (storeRemove st k) = storeSizeSum st - oldSize (storeGet st k) := by
induction st with
| nil => simp [storeRemove, storeSizeSum, storeGet, oldSize]
| cons p rest ih =>
  obtain ⟨k1, v1⟩ := p
  by_cases h : k1 = k
  · simp only [storeRemove, if_pos h, storeGet, storeSizeSum, List.map_cons,
      List.sum_cons, oldSize]
    ring
  · simp only [storeRemove, if_neg h, storeGet, storeSizeSum, List.map_cons,
      List.sum_cons] at *
    rw [ih]
    ring

theorem mem_keys_storeInsert (st : Store) (k k2 : String) (v : CacheValue) :
    k2 ∈ (storeInsert st k v).map Prod.fst ↔ k2 = k ∨ k2 ∈ st.map Prod.fst := by
induction st with
| nil => simp [storeInsert]
| cons p rest ih =>
  obtain ⟨k1, v1⟩ := p
  by_cases h : k1 = k
  · subst h
    simp [storeInsert]
  · simp only [storeInsert, if_neg h, List.map_cons, List.mem_cons, ih]
    tauto

theorem mem_keys_storeRemove (st : Store) (k k2 : String) :
    k2 ∈ (storeRemove st k).map Prod.fst → k2 ∈ st.map Prod.fst := by
induction st with
| nil => simp [storeRemove]
| cons p rest ih =>
  obtain ⟨k1, v1⟩ := p
  by_cases h : k1 = k
  · simp only [storeRemove, if_pos h, List.map_cons, List.mem_cons]
    tauto
  · simp only [storeRemove, if_neg h, List.map_cons, List.mem_cons]
    tauto

theorem storeKeysNodup_storeInsert (st : Store) (k : String) (v : CacheValue)
    (h : storeKeysNodup st) : storeKeysNodup (storeInsert st k v) := by
unfold storeKeysNodup at *
induction st with
| nil => simp [storeInsert]
| cons p rest ih =>
  obtain ⟨k1, v1⟩ := p
  simp only [List.map_cons, List.nodup_cons] at h
  by_cases h1 : k1 = k
  · subst h1
    have e1 : storeInsert ((k1, v1) :: rest) k1 v = (k1, v) :: rest := by
      simp [storeInsert]
    rw [e1]
    simp only [List.map_cons, List.nodup_cons]
    exact h
  · simp only [storeInsert, if_neg h1, List.map_cons, List.nodup_cons]
    refine ⟨fun hm => ?_, ih h.2⟩
    rcases (mem_keys_storeInsert rest k k1 v).1 hm with h2 | h2
    · exact h1 h2
    · exact h.1 h2

theorem storeKeysNodup_storeRemove (st : Store) (k : String)
    (h : storeKeysNodup st) : storeKeysNodup (storeRemove st k) := by
unfold storeKeysNodup at *
induction st with
| nil => simp [storeRemove]
| cons p rest ih =>
  obtain ⟨k1, v1⟩ := p
  simp only [List.map_cons, List.nodup_cons] at h
  by_cases h1 : k1 = k
  · simp only [storeRemove, if_pos h1]
    exact h.2
  · simp only [storeRemove, if_neg h1, List.map_cons, List.nodup_cons]
    exact ⟨fun hm => h.1 (mem_keys_storeRemove rest k k1 hm), ih h.2⟩

theorem putWithTrace_eq (s : CacheState) (k v : String) (now : Instant) (ok : Bool) :
    putWithTrace s k v now ok =
      ({ key_live_duration := s.key_live_duration
         backing_store :=
           storeInsert s.backing_store k { value := v, expiry := now + s.key_live_duration }
         queue :=
           if ok then s.queue ++ [{ key := k, expiry := now + s.key_live_duration }]
           else s.queue
         items :=
           ((storeInsert s.backing_store k
             { value := v, expiry := now + s.key_live_duration }).length : Int)
         size := s.size - oldSize (storeGet s.backing_store k) + (byteLen v : Int)
         hits := s.hits
         misses := s.misses },
       (match storeGet s.backing_store k with
        | some old => [SideEffect.sizeSub (byteLen old.value)]
        | none => []) ++
       [SideEffect.itemsSet
          (storeInsert s.backing_store k
            { value := v, expiry := now + s.key_live_duration }).length,
        SideEffect.sizeAdd (byteLen v),
        if ok then SideEffect.queuePush k (now + s.key_live_duration)
        else SideEffect.queuePushFailed k (now + s.key_live_duration)]) := by
unfold putWithTrace
cases h0 : storeGet s.backing_store k <;> cases ok <;> simp [h0, oldSize]

theorem remove_key_if_older_than_noop_of_absent (s : CacheState) (k : String)
    (e : Instant) (h : storeGet s.backing_store k = none) :
    remove_key_if_older_than s k e = s := by
unfold remove_key_if_older_than
rw [h]

theorem remove_key_if_older_than_noop_of_newer (s : CacheState) (k : String)
    (e : Instant) (cv : CacheValue) (h : storeGet s.backing_store k = some cv)
    (he : e < cv.expiry) : remove_key_if_older_than s k e = s := by
unfold remove_key_if_older_than
rw [h]
simp [he]

theorem remove_key_if_older_than_removes (s : CacheState) (k : String)
    (e : Instant) (cv : CacheValue) (h : storeGet s.backing_store k = some cv)
    (he : cv.expiry ≤ e) :
    remove_key_if_older_than s k e =
      { s with backing_store := storeRemove s.backing_store k
               items := (s.backing_store.length : Int)
               size := s.size - (byteLen cv.value : Int) } := by
unfold remove_key_if_older_than
rw [h]
simp [Nat.not_lt.2 he]

theorem remove_key_if_older_than_queue (s : CacheState) (k : String) (e : Instant) :
    (remove_key_if_older_than s k e).queue = s.queue := by
unfold remove_key_if_older_than
cases storeGet s.backing_store k with
| none => rfl
| some v => by_cases h : v.expiry > e <;> simp [h]

theorem remove_key_if_older_than_set_queue (s : CacheState) (k : String)
    (e : Instant) (q : List KeyExpiry) :
    remove_key_if_older_than { s with queue := q } k e =
      { remove_key_if_older_than s k e with queue := q } := by
unfold remove_key_if_older_than
cases storeGet s.backing_store k with
| none => rfl
| some v => by_cases h : v.expiry > e <;> simp [h]

theorem applyOp_storeKeysNodup (s : CacheState) (op : CacheOp)
    (h : storeKeysNodup s.backing_store) : storeKeysNodup (applyOp s op).backing_store := by
cases op with
| opGet k =>
  simp only [applyOp]
  unfold get
  cases h0 : storeGet s.backing_store k <;> simp [h0, h]
| opPut k v now ok =>
  simp only [applyOp, put]
  rw [putWithTrace_eq]
  exact storeKeysNodup_storeInsert _ _ _ h
| opRemoveIfExpired k e =>
  simp only [applyOp]
  cases h0 : storeGet s.backing_store k with
  | none =>
    rw [remove_key_if_older_than_noop_of_absent s k e h0]
    exact h
  | some cv =>
    by_cases h1 : cv.expiry ≤ e
    · rw [remove_key_if_older_than_removes s k e cv h0 h1]
      exact storeKeysNodup_storeRemove _ _ h
    · rw [remove_key_if_older_than_noop_of_newer s k e cv h0 (Nat.not_le.1 h1)]
      exact h

theorem runOps_storeKeysNodup_aux :
    ∀ (ops : List CacheOp) (s : CacheState), storeKeysNodup s.backing_store →
      storeKeysNodup (runOps s ops).backing_store
| [], _, h => h
| op :: ops, s, h =>
  runOps_storeKeysNodup_aux ops (applyOp s op) (applyOp_storeKeysNodup s op h)

/-- Every reachable store has pairwise distinct keys, so the association-list
embedding agrees with the hash-map it models. -/
theorem runOps_storeKeysNodup (d : Duration) (ops : List CacheOp) :
    storeKeysNodup (runOps (SimpleCache.new d) ops).backing_store :=
runOps_storeKeysNodup_aux ops (SimpleCache.new d) (by simp [SimpleCache.new, storeKeysNodup])

theorem storeGet_setStoreExpiry (st : Store) (e : Instant) (k : String) :
    storeGet (setStoreExpiry st e) k =
      (storeGet st k).map (fun cv => { value := cv.value, expiry := e }) := by
induction st with
| nil => simp [setStoreExpiry, storeGet]
| cons p rest ih =>
  obtain ⟨k1, v1⟩ := p
  by_cases h : k1 = k
  · simp [setStoreExpiry, storeGet, h]
  · simpa [setStoreExpiry, storeGet, h] using ih

theorem not_mem_of_storeGet_eq_none (st : Store) (k : String)
    (h : storeGet st k = none) : k ∉ st.map Prod.fst := by
induction st with
| nil => simp
| cons p rest ih =>
  obtain ⟨k1, v1⟩ := p
  by_cases h1 : k1 = k
  · rw [storeGet, if_pos h1] at h
    exact absurd h (by simp)
  · rw [storeGet, if_neg h1] at h
    simp only [List.map_cons, List.mem_cons]
    push_neg
    exact ⟨fun hh => h1 hh.symm, ih h⟩

theorem storeGet_storeRemove_eq_none (st : Store) (k k1 : String)
    (h : storeGet st k = none) : storeGet (storeRemove st k1) k = none := by
apply storeGet_eq_none_of_not_mem
intro hm
exact not_mem_of_storeGet_eq_none st k h (mem_keys_storeRemove st k1 k hm)

theorem applyOp_absent (s : CacheState) (op : CacheOp) (k : String)
    (h : storeGet s.backing_store k = none) (hop : opIsPutFor k op = false) :
    storeGet (applyOp s op).backing_store k = none := by
cases op with
| opGet k1 =>
  simp only [applyOp]
  unfold get
  cases h0 : storeGet s.backing_store k1 <;> simp [h0, h]
| opPut k1 v now ok =>
  simp only [applyOp, put]
  rw [putWithTrace_eq]
  have hne : k1 ≠ k := by
    intro hh
    rw [opIsPutFor, hh] at hop
    simp at hop
  simpa [storeGet_storeInsert_ne s.backing_store k1 k _ hne] using h
| opRemoveIfExpired k1 e =>
  simp only [applyOp]
  cases h0 : storeGet s.backing_store k1 with
  | none =>
    rw [remove_key_if_older_than_noop_of_absent s k1 e h0]
    exact h
  | some cv =>
    by_cases h1 : cv.expiry ≤ e
    · rw [remove_key_if_older_than_removes s k1 e cv h0 h1]
      exact storeGet_storeRemove_eq_none s.backing_store k k1 h
    · rw [remove_key_if_older_than_noop_of_newer s k1 e cv h0 (Nat.not_le.1 h1)]
      exact h

theorem runOps_absent_aux (k : String) :
    ∀ (ops : List CacheOp) (s : CacheState),
      storeGet s.backing_store k = none →
      (∀ op ∈ ops, opIsPutFor k op = false) →
      storeGet (runOps s ops).backing_store k = none
| [], _, h, _ => h
| op :: ops, s, h, hops =>
  runOps_absent_aux k ops (applyOp s op)
    (applyOp_absent s op k h (hops op (List.mem_cons_self op ops)))
    (fun op1 hm => hops op1 (List.mem_cons_of_mem op hm))

theorem clean_no_arrivals (q : List KeyExpiry) :
    ∀ (fuel : Nat) (s : CacheState) (clock : Instant) (proc : List KeyExpiry),
      s.queue = q → q.length < fuel →
      clean fuel s clock [] proc =
        { state := (processBatch { s with queue := [] } clock q).1
          clock := (processBatch { s with queue := [] } clock q).2
          pending := []
          processed := proc ++ q } := by
induction q with
| nil =>
  intro fuel s clock proc hq hlen
  match fuel, hlen with
  | fuel + 1, _ =>
    simp [clean, processBatch, hq]
| cons ke rest ih =>
  intro fuel s clock proc hq hlen
  match fuel, hlen with
  | fuel + 1, hlen =>
    have hstep : clean (fuel + 1) s clock [] proc =
        clean fuel
          (remove_key_if_older_than { s with queue := rest } ke.key ke.expiry)
          (max clock ke.expiry) [] (proc ++ [ke]) := by
      simp only [clean, List.filter_nil, List.map_nil, List.append_nil, hq]
    rw [hstep]
    have hq2 : (remove_key_if_older_than { s with queue := rest } ke.key
        ke.expiry).queue = rest := by
      rw [remove_key_if_older_than_queue]
    rw [ih fuel _ (max clock ke.expiry) (proc ++ [ke]) hq2
      (Nat.lt_of_succ_lt_succ hlen)]
    have e1 := remove_key_if_older_than_set_queue s ke.key ke.expiry rest
    have e2 := remove_key_if_older_than_set_queue s ke.key ke.expiry
      ([] : List KeyExpiry)
    have hcomm : { remove_key_if_older_than { s with queue := rest } ke.key
        ke.expiry with queue := ([] : List KeyExpiry) } =
        remove_key_if_older_than { s with queue := [] } ke.key ke.expiry := by
      rw [e1, e2]
    have hbatch : processBatch { s with queue := ([] : List KeyExpiry) } clock
        (ke :: rest) =
        processBatch (remove_key_if_older_than { s with queue := [] } ke.key
          ke.expiry) (max clock ke.expiry) rest := by
      rw [processBatch]
    rw [hcomm, ← hbatch]
    simp

/-- Claim C1 names a code bug.  At the failing input — TTL 10, put("a","xy")
at instant 0 storing expiry 10, then removeIfExpired("a", 10) — the entry is
deleted and the size gauge is decreased by the deleted value's byte length as
the claim says, and removeIfExpired at a strictly smaller notified expiry is a
no-op as the claim says; but the items gauge is set to 1, the pre-removal key
count, not to the new key count 0: cache.rs line 92 calls `self.len()` inside
the `CHashMap::alter` closure, and chashmap decrements the atomic length
counter that `len` reads only after the closure has returned `None`. -/
theorem remove_key_if_older_than_items_gauge_bug :
    (remove_key_if_older_than (put (SimpleCache.new 10) ("a") ("xy") 0 true)
      ("a") 10).backing_store = [] ∧
    (remove_key_if_older_than (put (SimpleCache.new 10) ("a") ("xy") 0 true)
      ("a") 10).size = 0 ∧
    (remove_key_if_older_than (put (SimpleCache.new 10) ("a") ("xy") 0 true)
      ("a") 10).items = 1 ∧
    ¬ (remove_key_if_older_than (put (SimpleCache.new 10) ("a") ("xy") 0 true)
      ("a") 10).items =
      ((remove_key_if_older_than (put (SimpleCache.new 10) ("a") ("xy") 0 true)
        ("a") 10).backing_store.length : Int) ∧
    remove_key_if_older_than (put (SimpleCache.new 10) ("a") ("xy") 0 true) ("a") 5 =
      put (SimpleCache.new 10) ("a") ("xy") 0 true := by
decide

/-- Claim C2 names a code bug.  The invariant "size gauge = sum of stored
value byte lengths and items gauge = key count" holds for the fresh cache and
after the put, but the sequence put("a","xy") (TTL 10, instant 0) followed by
removeIfExpired("a", 10) breaks it: the store is left empty while the items
gauge reads 1, the pre-removal key count (cache.rs line 92 reads `self.len()`
inside the `CHashMap::alter` closure, before chashmap decrements its length
counter).  The size half of the invariant is still true at this state; the
items half is violated after every actual removal. -/
theorem gauges_accuracy_broken_by_removal_bug :
    gaugesAccurate (SimpleCache.new 10) ∧
    gaugesAccurate (runOps (SimpleCache.new 10) [CacheOp.opPut ("a") ("xy") 0 true]) ∧
    ¬ gaugesAccurate (runOps (SimpleCache.new 10)
        [CacheOp.opPut ("a") ("xy") 0 true, CacheOp.opRemoveIfExpired ("a") 10]) ∧
    (runOps (SimpleCache.new 10)
        [CacheOp.opPut ("a") ("xy") 0 true,
         CacheOp.opRemoveIfExpired ("a") 10]).backing_store = [] ∧
    (runOps (SimpleCache.new 10)
        [CacheOp.opPut ("a") ("xy") 0 true,
         CacheOp.opRemoveIfExpired ("a") 10]).items = 1 ∧
    (runOps (SimpleCache.new 10)
        [CacheOp.opPut ("a") ("xy") 0 true,
         CacheOp.opRemoveIfExpired ("a") 10]).size =
      storeSizeSum (runOps (SimpleCache.new 10)
        [CacheOp.opPut ("a") ("xy") 0 true,
         CacheOp.opRemoveIfExpired ("a") 10]).backing_store := by
decide

/-- Claim C3: put(k, v) immediately followed by get(k) with the identity
mapper returns v, whether or not an entry for k existed before, because put
unconditionally replaces the entry for k with value v and expiry now + TTL. -/
theorem put_then_get_returns_value (s : CacheState) (k v : String) (now : Instant)
    (sendOk : Bool) :
    (get (put s k v now sendOk) k (fun x => x)).1 = some v ∧
    storeGet (put s k v now sendOk).backing_store k =
      some { value := v, expiry := now + s.key_live_duration } := by
have hb : (put s k v now sendOk).backing_store =
    storeInsert s.backing_store k { value := v, expiry := now + s.key_live_duration } := by
  rw [put, putWithTrace_eq]
constructor
· unfold get
  rw [hb, storeGet_storeInsert_self]
· rw [hb, storeGet_storeInsert_self]

/-- Claim C4: get(k) returns the stored value when an entry is present, even
when its expiry has passed (the result is unchanged under any rewrite of all
stored expiries), and returns empty when absent, in particular for every key
never written; it increments the hit counter exactly on presence and the miss
counter exactly on absence, and modifies neither the store, nor the queue,
nor the gauges. -/
theorem get_semantics {V : Type} (s : CacheState) (k : String) (f : String → V) :
    ((get s k f).2.backing_store = s.backing_store ∧
     (get s k f).2.queue = s.queue ∧
     (get s k f).2.size = s.size ∧
     (get s k f).2.items = s.items) ∧
    (∀ cv, storeGet s.backing_store k = some cv →
      (get s k f).1 = some (f cv.value) ∧
      (get s k f).2.hits = s.hits + 1 ∧ (get s k f).2.misses = s.misses) ∧
    (storeGet s.backing_store k = none →
      (get s k f).1 = none ∧
      (get s k f).2.misses = s.misses + 1 ∧ (get s k f).2.hits = s.hits) ∧
    (∀ e : Instant,
      (get { s with backing_store := setStoreExpiry s.backing_store e } k f).1 =
        (get s k f).1) ∧
    (∀ (d : Duration) (ops : List CacheOp),
      (∀ op ∈ ops, opIsPutFor k op = false) →
      (get (runOps (SimpleCache.new d) ops) k f).1 = none) := by
refine ⟨?_, ?_, ?_, ?_, ?_⟩
· unfold get
  cases h0 : storeGet s.backing_store k <;> simp
· intro cv hcv
  unfold get
  rw [hcv]
  simp
· intro h0
  unfold get
  rw [h0]
  simp
· intro e
  unfold get
  rw [storeGet_setStoreExpiry]
  cases h0 : storeGet s.backing_store k <;> simp
· intro d ops hops
  have habs : storeGet (runOps (SimpleCache.new d) ops).backing_store k = none :=
    runOps_absent_aux k ops (SimpleCache.new d) rfl hops
  unfold get
  rw [habs]

theorem get_semantics_witness :
    (get (put (SimpleCache.new 10) ("a") ("x") 0 true) ("a") (fun x => x)).1 =
      some ("x") ∧
    (get (SimpleCache.new 10) ("a") (fun x => x)).1 = none ∧
    (get (runOps (SimpleCache.new 10) [CacheOp.opPut ("b") ("y") 0 true])
      ("a") (fun x => x)).1 = none := by
refine ⟨?_, ?_, ?_⟩
· exact ((get_semantics (put (SimpleCache.new 10) ("a") ("x") 0 true) ("a")
    (fun x => x)).2.1 { value := "x", expiry := 10 } (by decide)).1
· exact ((get_semantics (SimpleCache.new 10) ("a") (fun x => x)).2.2.1 (by decide)).1
· exact (get_semantics (SimpleCache.new 10) ("a") (fun x => x)).2.2.2.2 10
    [CacheOp.opPut ("b") ("y") 0 true] (by decide)

/-- Claim C5 as stated is false: the claimed snapshot semantics, modelled from
the spec words, in which a pass consumes exactly the notifications queued when
the pass began and nothing sent later. -/
def snapshotPassProcessed (s : CacheState) : List KeyExpiry := s.queue

/-- Claim C5, counterexample: the pass starts at clock 0 with exactly one
queued notification, and a second notification is sent at time 3, while the
pass is waiting until expiry 5 of the first one.  try_iter picks the second
one up, so the pass consumes a notification sent after the pass started,
contradicting the claimed non-blocking snapshot. -/
theorem clean_not_snapshot_counterexample :
    (clean 10 { SimpleCache.new 10 with queue := [{ key := "a", expiry := 5 }] } 0
        [(3, { key := "b", expiry := 4 })] []).processed =
      [{ key := "a", expiry := 5 }, { key := "b", expiry := 4 }] ∧
    ¬ (clean 10 { SimpleCache.new 10 with queue := [{ key := "a", expiry := 5 }] } 0
        [(3, { key := "b", expiry := 4 })] []).processed =
      snapshotPassProcessed
        { SimpleCache.new 10 with queue := [{ key := "a", expiry := 5 }] } := by
decide

/-- Claim C5 (amended): each cleaner pass consumes notifications in FIFO
arrival order until the channel is observed empty — the batch is not a
snapshot, and a notification sent after the pass began may be consumed by the
same pass; for each notification it waits until the carried expiry when that
is still in the future and then invokes removeIfExpired(key, expiry); when no
notification arrives mid-pass the batch is exactly the queue contents at pass
start; after the batch the loop suspends for one full TTL. -/
theorem clean_fifo_wait_and_ttl (s : CacheState) (clock : Instant) (fuel : Nat)
    (hfuel : s.queue.length < fuel) :
    clean fuel s clock [] [] =
      { state := (processBatch { s with queue := [] } clock s.queue).1
        clock := (processBatch { s with queue := [] } clock s.queue).2
        pending := []
        processed := s.queue } ∧
    (∀ arrivals, (cleanerPass fuel s clock arrivals).clock =
      (clean fuel s clock arrivals []).clock + s.key_live_duration) := by
constructor
· simpa using clean_no_arrivals s.queue fuel s clock [] rfl hfuel
· intro arrivals
  rfl

theorem clean_fifo_wait_and_ttl_witness :
    clean 3 { SimpleCache.new 10 with
        backing_store := [(("a" : String), { value := "xy", expiry := 5 })],
        queue := [{ key := "a", expiry := 5 }] } 0 [] [] =
      { state := { SimpleCache.new 10 with backing_store := [], items := 1, size := -2 },
        clock := 5,
        pending := [],
        processed := [{ key := "a", expiry := 5 }] } ∧
    (cleanerPass 3 { SimpleCache.new 10 with
        backing_store := [(("a" : String), { value := "xy", expiry := 5 })],
        queue := [{ key := "a", expiry := 5 }] } 0 []).clock = 15 := by
constructor
· rw [(clean_fifo_wait_and_ttl { SimpleCache.new 10 with
      backing_store := [(("a" : String), { value := "xy", expiry := 5 })],
      queue := [{ key := "a", expiry := 5 }] } 0 3 (by decide)).1]
  decide
· rw [(clean_fifo_wait_and_ttl { SimpleCache.new 10 with
      backing_store := [(("a" : String), { value := "xy", expiry := 5 })],
      queue := [{ key := "a", expiry := 5 }] } 0 3 (by decide)).2 []]
  decide

/-- Claim C6: a cleaner delete never removes data written strictly after the
delete's triggering notification was queued: when put(k, v2) at t2 follows the
put at t1 that queued the notification with expiry t1 + TTL (t1 < t2),
processing that notification leaves the entry holding v2 untouched, and a
subsequent get(k) returns v2 even though the stale notification for the
earlier value is processed first. -/
theorem stale_notification_preserves_fresh_put (s : CacheState) (k v1 v2 : String)
    (t1 t2 : Instant) (h : t1 < t2) :
    (put s k v1 t1 true).queue =
      s.queue ++ [{ key := k, expiry := t1 + s.key_live_duration }] ∧
    remove_key_if_older_than (put (put s k v1 t1 true) k v2 t2 true) k
        (t1 + s.key_live_duration) =
      put (put s k v1 t1 true) k v2 t2 true ∧
    (get (remove_key_if_older_than (put (put s k v1 t1 true) k v2 t2 true) k
        (t1 + s.key_live_duration)) k (fun x => x)).1 = some v2 := by
have hq1 : (put s k v1 t1 true).queue =
    s.queue ++ [{ key := k, expiry := t1 + s.key_live_duration }] := by
  simp [put, putWithTrace_eq]
have hb2 : storeGet (put (put s k v1 t1 true) k v2 t2 true).backing_store k =
    some { value := v2, expiry := t2 + s.key_live_duration } := by
  simp [put, putWithTrace_eq, storeGet_storeInsert_self]
have hlt : t1 + s.key_live_duration < t2 + s.key_live_duration :=
  Nat.add_lt_add_right h s.key_live_duration
have hnoop : remove_key_if_older_than (put (put s k v1 t1 true) k v2 t2 true) k
    (t1 + s.key_live_duration) = put (put s k v1 t1 true) k v2 t2 true :=
  remove_key_if_older_than_noop_of_newer _ k _ _ hb2 hlt
refine ⟨hq1, hnoop, ?_⟩
rw [hnoop]
unfold get
rw [hb2]

theorem stale_notification_preserves_fresh_put_witness :
    (get (remove_key_if_older_than
        (put (put (SimpleCache.new 10) ("a") ("old") 0 true) ("a") ("new") 1 true)
        ("a") 10) ("a") (fun x => x)).1 = some ("new") :=
(stale_notification_preserves_fresh_put (SimpleCache.new 10) ("a") ("old") ("new")
  0 1 (by decide)).2.2

/-- Claim C7 as stated is false: the side-effect order it claims for put,
modelled from the spec words — both size-gauge adjustments first, then the
item-count set, then the queue push. -/
def claimedPutEffects (s : CacheState) (k v : String) (now : Instant) :
    List SideEffect :=
(match storeGet s.backing_store k with
 | some old => [SideEffect.sizeSub (byteLen old.value)]
 | none => []) ++
[SideEffect.sizeAdd (byteLen v),
 SideEffect.itemsSet
   (storeInsert s.backing_store k
     { value := v, expiry := now + s.key_live_duration }).length,
 SideEffect.queuePush k (now + s.key_live_duration)]

/-- Claim C7, counterexample: on a fresh cache, put emits the item-count set
before the size-gauge increase (cache.rs line 172 precedes line 173), so the
claimed order — size adjustments completed before the item-count set — does
not match the code. -/
theorem put_effect_order_counterexample :
    (putWithTrace (SimpleCache.new 10) ("a") ("x") 0 true).2 =
      [SideEffect.itemsSet 1, SideEffect.sizeAdd 1, SideEffect.queuePush ("a") 10] ∧
    claimedPutEffects (SimpleCache.new 10) ("a") ("x") 0 =
      [SideEffect.sizeAdd 1, SideEffect.itemsSet 1, SideEffect.queuePush ("a") 10] ∧
    ¬ (putWithTrace (SimpleCache.new 10) ("a") ("x") 0 true).2 =
      claimedPutEffects (SimpleCache.new 10) ("a") ("x") 0 := by
decide

/-- Claim C7 (amended): for every put(k, v) the side effects occur in this
order: (a) the size gauge is decreased by the old value's length if an entry
for k existed; (b) the item-count gauge is set to the new store size; (c) the
size gauge is increased by v's length; (d) an expiry notification carrying
the same expiry instant as the stored entry, now + TTL, is pushed onto the
queue. -/
theorem put_effect_order (s : CacheState) (k v : String) (now : Instant) :
    (putWithTrace s k v now true).2 =
      (match storeGet s.backing_store k with
       | some old => [SideEffect.sizeSub (byteLen old.value)]
       | none => []) ++
      [SideEffect.itemsSet
         (storeInsert s.backing_store k
           { value := v, expiry := now + s.key_live_duration }).length,
       SideEffect.sizeAdd (byteLen v),
       SideEffect.queuePush k (now + s.key_live_duration)] ∧
    storeGet (putWithTrace s k v now true).1.backing_store k =
      some { value := v, expiry := now + s.key_live_duration } := by
rw [putWithTrace_eq]
exact ⟨rfl, storeGet_storeInsert_self _ _ _⟩

/-- Claim C8: when the channel push fails, put still succeeds without raising:
the stored entry and the size, item, hit and miss metrics are exactly those of
the success path, the queue is untouched, the failure is only logged (the
trace ends in the logged push failure instead of a push), and a later
successful put for k does enqueue a fresh notification.  (put is a total
function of the embedded state, so no failure can escape it.) -/
theorem put_send_failure_graceful (s : CacheState) (k v : String) (now : Instant) :
    ((put s k v now false).backing_store = (put s k v now true).backing_store ∧
     (put s k v now false).size = (put s k v now true).size ∧
     (put s k v now false).items = (put s k v now true).items ∧
     (put s k v now false).hits = (put s k v now true).hits ∧
     (put s k v now false).misses = (put s k v now true).misses) ∧
    storeGet (put s k v now false).backing_store k =
      some { value := v, expiry := now + s.key_live_duration } ∧
    (put s k v now false).queue = s.queue ∧
    (putWithTrace s k v now false).2 =
      (match storeGet s.backing_store k with
       | some old => [SideEffect.sizeSub (byteLen old.value)]
       | none => []) ++
      [SideEffect.itemsSet
         (storeInsert s.backing_store k
           { value := v, expiry := now + s.key_live_duration }).length,
       SideEffect.sizeAdd (byteLen v),
       SideEffect.queuePushFailed k (now + s.key_live_duration)] ∧
    (∀ (v2 : String) (now2 : Instant),
      (put (put s k v now false) k v2 now2 true).queue =
        s.queue ++ [{ key := k, expiry := now2 + s.key_live_duration }]) := by
refine ⟨?_, ?_, ?_, ?_, fun v2 now2 => ?_⟩ <;>
  simp [put, putWithTrace_eq, storeGet_storeInsert_self]

/-- Claim C9: removeIfExpired on a key with no entry in the store changes
nothing: the resulting state — store, size gauge, item gauge, hit and miss
counters and queue included — equals the state before the call. -/
theorem remove_key_if_older_than_missing_key_noop (s : CacheState) (k : String)
    (e : Instant) (h : storeGet s.backing_store k = none) :
    remove_key_if_older_than s k e = s :=
remove_key_if_older_than_noop_of_absent s k e h

theorem remove_key_if_older_than_missing_key_noop_witness :
    storeGet (SimpleCache.new 10).backing_store ("missing-key") = none ∧
    remove_key_if_older_than (SimpleCache.new 10) ("missing-key") 99 =
      SimpleCache.new 10 :=
⟨by decide,
 remove_key_if_older_than_missing_key_noop (SimpleCache.new 10) ("missing-key") 99
   (by decide)⟩

/-- Claim C10: get(k, f) invokes the mapper exactly once, on the stored value,
when an entry is present — witnessed by an instrumented mapper that logs each
invocation and produces exactly one log entry, holding the stored value — and
returns None without invoking the mapper on a miss: the miss result is `none`
for every mapper, so a caller-supplied mapper is never applied on a miss. -/
theorem get_mapper_called_once_on_hit_only {V : Type} (s : CacheState) (k : String)
    (f : String → V) :
    (∀ cv, storeGet s.backing_store k = some cv →
      (get s k (fun x => (f x, [x]))).1 = some (f cv.value, [cv.value])) ∧
    (storeGet s.backing_store k = none →
      ∀ (W : Type) (g : String → W), (get s k g).1 = none) := by
constructor
· intro cv hcv
  unfold get
  rw [hcv]
· intro h0 W g
  unfold get
  rw [h0]

theorem get_mapper_called_once_on_hit_only_witness :
    (get (put (SimpleCache.new 10) ("a") ("xy") 0 true) ("a")
        (fun x => (byteLen x, [x]))).1 = some (2, ["xy"]) ∧
    (get (SimpleCache.new 10) ("a") (fun x => byteLen x)).1 = none := by
constructor
· exact (get_mapper_called_once_on_hit_only
    (put (SimpleCache.new 10) ("a") ("xy") 0 true) ("a") (fun x => byteLen x)).1
    { value := "xy", expiry := 10 } (by decide)
· exact (get_mapper_called_once_on_hit_only (SimpleCache.new 10) ("a")
    (fun x => byteLen x)).2 (by decide) Nat (fun x => byteLen x)

end SimpleMemCache
